import Mathlib

/-!
Verification of the Borrowed-Virtual-Time (BVT) scheduler of
`xen/common/sched_bvt.c` against its natural-language specification.

The C code is shallowly embedded: machine integers (`u32`, `s32`) are
modelled as `Nat` / `Int` with explicit reduction modulo `2^32` at every
operation where the C type would truncate, per-domain state
(`struct bvt_dom_info`) is a Lean structure, and each C function that the
claims mention becomes a pure Lean function from old state to new state.
-/

namespace BVT

/-- Modulus of the C `u32` type, `2^32`. -/
def u32Mod : Nat := 4294967296

/-- Largest `u32` value, the C expression `~0U` used as the scan sentinel. -/
def u32Max : Nat := u32Mod - 1

/-- Value of a C `s32` expression reinterpreted from its `u32` bit pattern
(two's complement). -/
def s32ofU32 (n : Nat) : Int :=
  if n % u32Mod < 2147483648 then ((n % u32Mod : Nat) : Int)
  else ((n % u32Mod : Nat) : Int) - (u32Mod : Int)

/-- Bit pattern of a C signed integer converted to `u32`
(conversion of a negative value adds `2^32`). -/
def u32ofInt (i : Int) : Nat := (i % (u32Mod : Int)).toNat

/-- Modelled from the spec: `MCU`, the minimum charging unit,
`MICROSECS(100)` — 100 microseconds expressed in nanoseconds.  The macro
comes from a time header that is not part of the sources; the spec fixes
it as "a fixed minimum time unit (100 microseconds)". -/
def MCU : Nat := 100000

/-- Modelled from the spec: the distinguished identifier of the idle
domain (`IDLE_DOMAIN_ID` in the missing headers); only its distinctness
from ordinary domain identifiers matters. -/
def IDLE_DOMAIN_ID : Nat := 0x7fff

/-- Per-domain BVT scheduling record, `struct bvt_dom_info` (plus the
fields of the owning `struct domain` that the scheduler reads:
`domain` id, `processor`, `lastschd`, runnability and migration flags,
and the armed/expiry state of the two `ac_timer`s). -/
structure Dom where
  /-- Domain identifier (`domain->domain`). -/
  domid : Nat
  /-- The CPU this domain is assigned to (`domain->processor`). -/
  processor : Nat
  /-- Inverse of the weight, `u32 mcu_advance`. -/
  mcu_advance : Nat
  /-- Actual virtual time, `u32 avt`. -/
  avt : Nat
  /-- Effective virtual time, `u32 evt`. -/
  evt : Nat
  /-- C `int warpback` (any nonzero value is true). -/
  warpback : Nat
  /-- C `int warp` (any nonzero value is true). -/
  warp : Nat
  /-- Virtual time warp, `s32 warp_value`. -/
  warp_value : Int
  /-- Warp limit, `s_time_t warpl` (nanoseconds). -/
  warpl : Int
  /-- Unwarp time requirement, `s_time_t warpu` (nanoseconds). -/
  warpu : Int
  /-- Time the domain was last scheduled, `domain->lastschd`. -/
  lastschd : Int
  /-- Result of `domain_runnable(domain)`. -/
  runnable : Bool
  /-- Result of `test_bit(DF_MIGRATED, &domain->flags)`. -/
  migrated : Bool
  /-- Whether `warp_timer` is currently armed. -/
  warp_timer_armed : Bool
  /-- Expiry of `warp_timer` when armed. -/
  warp_timer_expires : Int
  /-- Whether `unwarp_timer` is currently armed. -/
  unwarp_timer_armed : Bool
  /-- Expiry of `unwarp_timer` when armed. -/
  unwarp_timer_expires : Int
deriving DecidableEq, Repr

/-- The C test `is_idle_task(d)`, i.e. `d->domain == IDLE_DOMAIN_ID`. -/
def is_idle_task (d : Dom) : Bool := d.domid == IDLE_DOMAIN_ID

/-- Function `calc_avt`: charge the domain for the time it ran since `lastschd`.
`ranfor = (u32)(now - d->lastschd); mcus = (ranfor + MCU - 1)/MCU;
return inf->avt + mcus;` — all in `u32` arithmetic. -/
def calc_avt (d : Dom) (now : Int) : Nat :=
  let ranfor : Nat := ((now - d.lastschd) % (u32Mod : Int)).toNat
  let mcus : Nat := ((ranfor + MCU - 1) % u32Mod) / MCU
  (d.avt + mcus) % u32Mod

/-- Function `calc_evt`: effective virtual time of a domain given an `avt` value:
`if (inf->warp) return avt - inf->warp_value; else return avt;`
(`u32` subtraction, the `s32 warp_value` converted to `u32`). -/
def calc_evt (d : Dom) (avt : Nat) : Nat :=
  if d.warp ≠ 0 then (avt + u32Mod - u32ofInt d.warp_value) % u32Mod
  else avt

/-- Modelled from the spec: `rem_ac_timer` of the missing timer subsystem
simply disarms a timer; per the spec, "cancellation must be idempotent
(cancelling an already-fired or unarmed timer is a no-op, not an error)". -/
def rem_ac_timer (_armed : Bool) : Bool := false

/-- Function `warp_timer_fn`: the warp-expiry callback.  Returns the updated record
and whether a reschedule softirq was raised. -/
def warp_timer_fn (d : Dom) (now : Int) : Dom × Bool :=
  let d1 := { d with warp := 0 }
  if d1.warpu = 0 then
    ({ d1 with warpback := 0 }, true)
  else
    ({ d1 with unwarp_timer_armed := true,
               unwarp_timer_expires := now + d1.warpu }, true)

/-- Function `unwarp_timer_fn`: the unwarp-expiry callback.  Returns the updated
record and whether a reschedule softirq was raised. -/
def unwarp_timer_fn (d : Dom) : Dom × Bool :=
  if d.warpback ≠ 0 then
    ({ d with warp := 1 }, true)
  else
    (d, false)

/-- Direction of a control-interface request (`SCHED_INFO_PUT` /
`SCHED_INFO_GET` from the missing public header). -/
inductive Direction where
  | put
  | get
deriving DecidableEq, Repr

/-- Payload of a `bvt_adjdom` request, `struct bvt_adjdom`. -/
structure BvtAdjdom where
  mcu_adv : Nat
  warpback : Nat
  warpvalue : Int
  warpl : Int
  warpu : Int
deriving DecidableEq, Repr

/-- Modelled from the spec: the `EINVAL` errno constant (22) from the
missing error header; `bvt_adjdom` returns its negation on a malformed
request. -/
def EINVAL : Int := 22

/-- Function `bvt_adjdom`: adjust (or read back) the scheduling parameters of one
domain.  Returns the C return value, the updated domain record, and the
(possibly updated, for GET) request payload. -/
def bvt_adjdom (d : Dom) (dir : Direction) (params : BvtAdjdom) :
    Int × Dom × BvtAdjdom :=
  match dir with
  | .put =>
    if params.mcu_adv = 0 then (-EINVAL, d, params)
    else
      (0,
       { d with mcu_advance := params.mcu_adv,
                warpback := params.warpback,
                warp := 1,
                warp_value := params.warpvalue,
                warpl := params.warpl,
                warpu := params.warpu },
       params)
  | .get =>
    (0, d,
     { params with mcu_adv := d.mcu_advance,
                   warpvalue := d.warp_value,
                   warpback := d.warpback,
                   warpl := d.warpl,
                   warpu := d.warpu })

/-- Result of `bvt_wake`: the updated record of the woken domain, the
updated run queue, whether `SCHEDULE_SOFTIRQ` was raised, and the (possibly
tightened) expiry of the per-CPU reschedule timer `s_timer`. -/
structure WakeResult where
  dom : Dom
  runqueue : List Dom
  raised : Bool
  s_timer_expires : Int
deriving DecidableEq, Repr

/-- Function `bvt_wake`: wake a blocked domain `d` on the CPU whose run queue is
`runqueue`, system virtual time `svt`, current domain `curr`, and armed
reschedule deadline `s_timer_expires`.  Run-queue membership of the
intrusive list node is modelled by membership of the domain id. -/
def bvt_wake (d : Dom) (runqueue : List Dom) (svt : Nat) (curr : Dom)
    (now s_timer_expires ctx_allow : Int) : WakeResult :=
  if runqueue.any (fun p => p.domid == d.domid) then
    { dom := d, runqueue := runqueue, raised := false,
      s_timer_expires := s_timer_expires }
  else
    let avt1 := if d.avt < svt ∨ d.migrated then svt else d.avt
    let d1 := { d with avt := avt1, evt := calc_evt d avt1 }
    let curr_evt := calc_evt curr (calc_avt curr now)
    let r_time : Int := curr.lastschd +
      ((((d1.evt + u32Mod - curr_evt) % u32Mod) / curr.mcu_advance : Nat) : Int) +
      ctx_allow
    if is_idle_task curr ∨ d1.evt ≤ curr_evt then
      { dom := d1, runqueue := d1 :: runqueue, raised := true,
        s_timer_expires := s_timer_expires }
    else if r_time < s_timer_expires then
      { dom := d1, runqueue := d1 :: runqueue, raised := false,
        s_timer_expires := r_time }
    else
      { dom := d1, runqueue := d1 :: runqueue, raised := false,
        s_timer_expires := s_timer_expires }

/-- State of the run-queue scan of `bvt_do_schedule`
(`next_inf`, `next_evt`, `next_prime_inf`, `next_prime_evt`, `min_avt`). -/
structure ScanState where
  next : Dom
  next_evt : Nat
  next_prime : Option Dom
  next_prime_evt : Nat
  min_avt : Nat
deriving DecidableEq, Repr

/-- One iteration of the `list_for_each` scan body in `bvt_do_schedule`. -/
def scanStep (s : ScanState) (p : Dom) : ScanState :=
  let s1 :=
    if p.evt < s.next_evt then
      { s with next_prime := some s.next, next_prime_evt := s.next_evt,
               next := p, next_evt := p.evt }
    else if s.next_prime_evt = u32Max then
      { s with next_prime := some p, next_prime_evt := p.evt }
    else if p.evt < s.next_prime_evt then
      { s with next_prime := some p, next_prime_evt := p.evt }
    else s
  if p.avt < s1.min_avt then { s1 with min_avt := p.avt } else s1

/-- Initial scan state: `next_inf = BVT_INFO(schedule_data[cpu].idle)` and
all three trackers at `~0U`. -/
def scanInit (idle : Dom) : ScanState :=
  { next := idle, next_evt := u32Max, next_prime := none,
    next_prime_evt := u32Max, min_avt := u32Max }

/-- The full run-queue scan of `bvt_do_schedule` (lines 453–485). -/
def scanQueue (idle : Dom) (q : List Dom) : ScanState :=
  q.foldl scanStep (scanInit idle)

/-- Fold-back phase of `bvt_do_schedule` (lines 432–442): if `prev` is not
idle, recompute its `avt`/`evt`, cancel its warp timer, delete it from the
run queue and re-insert it at the tail when still runnable.  Returns the
updated queue and the updated record of `prev`. -/
def foldPrev (queue : List Dom) (prev : Dom) (now : Int) : List Dom × Dom :=
  if is_idle_task prev then (queue, prev)
  else
    let avt1 := calc_avt prev now
    let prev1 := { prev with avt := avt1, evt := calc_evt prev avt1,
                             warp_timer_armed := rem_ac_timer prev.warp_timer_armed }
    let q1 := queue.filter (fun p => p.domid != prev.domid)
    (if prev1.runnable then q1 ++ [prev1] else q1, prev1)

/-- The body of the virtual-time overflow loop (lines 508–510):
`p_inf->evt -= 0xe0000000; p_inf->avt -= 0xe0000000;` in `u32` arithmetic. -/
def rebase_dom (d : Dom) : Dom :=
  { d with evt := (d.evt + u32Mod - 0xe0000000) % u32Mod,
           avt := (d.avt + u32Mod - 0xe0000000) % u32Mod }

/-- Virtual-time overflow guard of `bvt_do_schedule` (lines 497–517): when
`svt` has reached `0xf0000000`, every domain of the global task list that
is assigned to this CPU is rebased down by `0xe0000000`, and so is `svt`. -/
def overflow_guard (cpu : Nat) (alldoms : List Dom) (svt : Nat) :
    List Dom × Nat :=
  if 0xf0000000 ≤ svt then
    (alldoms.map (fun p => if p.processor = cpu then rebase_dom p else p),
     svt - 0xe0000000)
  else (alldoms, svt)

/-- Truncation of a signed integer expression to C `s32`
(`2147483648 = 2^31`). -/
def s32wrap (i : Int) : Int := ((i + 2147483648) % (u32Mod : Int)) - 2147483648

/-- Two-runnable-task branch of the slice computation (lines 540–541):
`r_time = ((next_prime_inf->evt - next_inf->evt)/next_inf->mcu_advance)
+ ctx_allow;` — the subtraction, division and addition are performed in
`u32` and the result is stored into the `s32` variable `r_time`. -/
def slice_two_tasks (next_evt next_prime_evt mcu : Nat) (ctx_allow : Int) : Int :=
  s32ofU32 ((((next_prime_evt + u32Mod - next_evt) % u32Mod) / mcu
    + u32ofInt ctx_allow) % u32Mod)

/-- Slice computation of `bvt_do_schedule` (lines 519–543), given the two
scan results (with their `evt` fields as read at that point). -/
def compute_slice (next : Dom) (next_prime : Option Dom) (ctx_allow : Int) :
    Int :=
  if is_idle_task next then ctx_allow
  else
    match next_prime with
    | none => s32wrap (10 * ctx_allow)
    | some np =>
      if is_idle_task np then s32wrap (10 * ctx_allow)
      else slice_two_tasks next.evt np.evt next.mcu_advance ctx_allow

/-- Result of `bvt_do_schedule`: the `task_slice_t` return value plus the
updated per-CPU state.  Record identity caveat of the value embedding: the
armed warp timer of the returned `task` is tracked in `task` itself (the C
code mutates the shared record that the queue also points at). -/
structure SchedResult where
  task : Dom
  time : Int
  runqueue : List Dom
  alldoms : List Dom
  svt : Nat
deriving DecidableEq, Repr

/-- Function `bvt_do_schedule`: fold the previous domain back, scan the run queue,
update `svt`, apply the overflow guard, compute the slice for the winner,
and arm the winner's warp timer when it is warping with a positive warp
limit.  The slice is computed from the records as they stand after the
overflow guard, exactly as the C code re-reads `next_inf->evt` after the
rebase loop; every domain on this CPU's run queue is assumed to appear in
the global task list with `processor = cpu`, so the guard applies to the
scan results precisely when it fires. -/
def bvt_do_schedule (cpu : Nat) (idle : Dom) (alldoms runqueue : List Dom)
    (svt : Nat) (prev : Dom) (now ctx_allow : Int) : SchedResult :=
  let q1 := (foldPrev runqueue prev now).1
  let s := scanQueue idle q1
  let svt1 := if s.min_avt ≠ u32Max then s.min_avt else svt
  let g := overflow_guard cpu alldoms svt1
  let next := if 0xf0000000 ≤ svt1 then rebase_dom s.next else s.next
  let next_prime :=
    if 0xf0000000 ≤ svt1 then s.next_prime.map rebase_dom else s.next_prime
  let time := compute_slice next next_prime ctx_allow
  let next1 := if next.warp ≠ 0 ∧ 0 < next.warpl then
      { next with warp_timer_armed := true, warp_timer_expires := now + next.warpl }
    else next
  { task := next1, time := time,
    runqueue := if 0xf0000000 ≤ svt1 then
        q1.map (fun p => if p.processor = cpu then rebase_dom p else p)
      else q1,
    alldoms := g.1, svt := g.2 }

/-- Specification-side characterization used to state the scan claim:
`d` sits at position `j` of `l`, its `evt` is minimal over `l`, and every
strictly earlier position holds a strictly larger `evt` (so among ties the
earlier position wins). -/
def IsFirstMinAt (l : List Dom) (j : Nat) (d : Dom) : Prop :=
  ∃ hj : j < l.length,
    l.get ⟨j, hj⟩ = d ∧
    (∀ p ∈ l, d.evt ≤ p.evt) ∧
    (∀ k, ∀ hk : k < l.length, k < j → d.evt < (l.get ⟨k, hk⟩).evt)

/-- First element of a list attaining the minimal `evt` (earlier position
wins ties); a proof-side reference function for the scan. -/
def firstMin : List Dom → Option Dom
  | [] => none
  | p :: l =>
    match firstMin l with
    | none => some p
    | some q => if q.evt < p.evt then some q else some p

/-- Bookkeeping invariant of the scan state: the tracked `next_evt` and
`next_prime_evt` mirror the `evt` fields of the tracked records and are
ordered. -/
def ScanWf (s : ScanState) : Prop :=
  s.next_evt = s.next.evt ∧
  (∀ np, s.next_prime = some np → s.next_prime_evt = np.evt) ∧
  s.next_evt ≤ s.next_prime_evt

/-- Full invariant of the run-queue scan after folding the queue `q`
(with the initial state built from `idle`): the virtual list `idle :: q`
decomposes around the current winner, whose `evt` is minimal and strictly
below every earlier entry, the runner-up is the first minimum of the rest,
and `min_avt` is the running minimum of the `avt` fields. -/
def ScanInv (idle : Dom) (q : List Dom) (s : ScanState) : Prop :=
  ∃ l1 l2,
    idle :: q = l1 ++ s.next :: l2 ∧
    (∀ p ∈ l1, s.next.evt < p.evt) ∧
    (∀ p ∈ idle :: q, s.next.evt ≤ p.evt) ∧
    s.next_evt = s.next.evt ∧
    s.next_prime = firstMin (l1 ++ l2) ∧
    ((s.next_prime = none ∧ s.next_prime_evt = u32Max) ∨
      (∃ np, s.next_prime = some np ∧ s.next_prime_evt = np.evt)) ∧
    s.min_avt = q.foldl (fun m p => if p.avt < m then p.avt else m) u32Max

/-- Baseline concrete record used by the concrete witnesses below. -/
def d0 : Dom :=
  { domid := 1, processor := 0, mcu_advance := 10, avt := 0, evt := 0,
    warpback := 0, warp := 0, warp_value := 0, warpl := 0, warpu := 0,
    lastschd := 0, runnable := true, migrated := false,
    warp_timer_armed := false, warp_timer_expires := 0,
    unwarp_timer_armed := false, unwarp_timer_expires := 0 }

/-- Concrete record of the idle domain: `bvt_add_task` gives the idle
domain `avt = evt = ~0U`. -/
def idleDom : Dom :=
  { d0 with domid := IDLE_DOMAIN_ID, avt := u32Max, evt := u32Max }

/-- Concrete warping record with `warp_value = 0`, used to refute the
"equality exactly when not warping" half of the `evt`/`avt` claim. -/
def warpZeroDom : Dom := { d0 with warp := 1, warp_value := 0 }

/-- Concrete warping record with a positive, bounded `warp_value`. -/
def warpedDom : Dom := { d0 with warp := 1, warp_value := 3 }

/-- C6 counterexample: a domain with the warp flag set but `warp_value = 0`
has `evt = avt`, so "`evt ≤ avt` with equality exactly when the domain is
not warping" fails on the code: here equality holds while warping. -/
theorem calc_evt_equality_while_warping :
    warpZeroDom.warp ≠ 0 ∧ calc_evt warpZeroDom 5 = 5 ∧
    ¬(calc_evt warpZeroDom 5 = 5 ↔ warpZeroDom.warp = 0) := by
  decide

/-- C6 (corrected): `calc_evt` returns `avt - warp_value` (as `u32`
arithmetic) when the warp flag is set and `avt` otherwise; provided the
configured `warp_value` is positive and at most `avt` whenever the domain
warps, `evt ≤ avt` with equality exactly when the domain is not warping. -/
theorem calc_evt_warp_semantics (d : Dom) (avt : Nat) (havt : avt < u32Mod)
    (hw : d.warp ≠ 0 → 0 < d.warp_value ∧ d.warp_value ≤ (avt : Int)) :
    (d.warp ≠ 0 → ((calc_evt d avt : Nat) : Int) = (avt : Int) - d.warp_value) ∧
    (d.warp = 0 → calc_evt d avt = avt) ∧
    calc_evt d avt ≤ avt ∧
    (calc_evt d avt = avt ↔ d.warp = 0) := by
  by_cases h : d.warp = 0
  · simp [calc_evt, h]
  · obtain ⟨h1, h2⟩ := hw h
    have hnn : (0 : Int) ≤ d.warp_value := le_of_lt h1
    have hlt : d.warp_value < (u32Mod : Int) := by
      refine lt_of_le_of_lt h2 ?_
      exact_mod_cast havt
    have hv : u32ofInt d.warp_value = d.warp_value.toNat := by
      unfold u32ofInt
      rw [Int.emod_eq_of_lt hnn hlt]
    have hvn : d.warp_value.toNat ≤ avt := by omega
    have hvpos : 0 < d.warp_value.toNat := by omega
    have hev : calc_evt d avt = avt - d.warp_value.toNat := by
      unfold calc_evt
      rw [if_pos h, hv]
      have e : avt + u32Mod - d.warp_value.toNat =
          (avt - d.warp_value.toNat) + u32Mod := by omega
      rw [e, Nat.add_mod_right, Nat.mod_eq_of_lt (by omega)]
    refine ⟨fun _ => ?_, fun h0 => absurd h0 h, ?_, ?_⟩
    · rw [hev]; omega
    · rw [hev]; omega
    · rw [hev]
      exact ⟨fun he => absurd he (by omega), fun h0 => absurd h0 h⟩

/-- Witness for `calc_evt_warp_semantics` at a concrete warping record. -/
theorem calc_evt_warp_semantics_witness :
    ((10 : Nat) < u32Mod ∧
      (warpedDom.warp ≠ 0 → 0 < warpedDom.warp_value ∧
        warpedDom.warp_value ≤ ((10 : Nat) : Int))) ∧
    ((warpedDom.warp ≠ 0 →
        ((calc_evt warpedDom 10 : Nat) : Int) = ((10 : Nat) : Int) - warpedDom.warp_value) ∧
      (warpedDom.warp = 0 → calc_evt warpedDom 10 = 10) ∧
      calc_evt warpedDom 10 ≤ 10 ∧
      (calc_evt warpedDom 10 = 10 ↔ warpedDom.warp = 0)) :=
  ⟨⟨by decide, by decide⟩,
    calc_evt_warp_semantics warpedDom 10 (by decide) (by decide)⟩

/-- C7 (confirmed): the warp-expiry callback clears the warp flag, then
either (no unwarp requirement) clears `warpback`, or arms the unwarp timer
for `now + warpu`; it raises a reschedule in both branches.  The
unwarp-expiry callback re-enables warping and raises a reschedule exactly
when `warpback` is still set, and otherwise changes nothing. -/
theorem warp_unwarp_timer_behavior (d : Dom) (now : Int) :
    (warp_timer_fn d now).1.warp = 0 ∧
    (warp_timer_fn d now).2 = true ∧
    (d.warpu = 0 →
      (warp_timer_fn d now).1.warpback = 0 ∧
      (warp_timer_fn d now).1.unwarp_timer_armed = d.unwarp_timer_armed) ∧
    (d.warpu ≠ 0 →
      (warp_timer_fn d now).1.warpback = d.warpback ∧
      (warp_timer_fn d now).1.unwarp_timer_armed = true ∧
      (warp_timer_fn d now).1.unwarp_timer_expires = now + d.warpu) ∧
    (d.warpback ≠ 0 → unwarp_timer_fn d = ({ d with warp := 1 }, true)) ∧
    (d.warpback = 0 → unwarp_timer_fn d = (d, false)) := by
  by_cases h : d.warpu = 0 <;> by_cases hb : d.warpback = 0 <;>
    simp [warp_timer_fn, unwarp_timer_fn, h, hb]

/-- Concrete record for the warp-expiry witness: warping, `warpu = 0`. -/
def warpExpDom : Dom := { d0 with warp := 1, warpback := 1, warpu := 0 }

/-- Witness for `warp_unwarp_timer_behavior` at a concrete record. -/
theorem warp_unwarp_timer_behavior_witness :
    (warp_timer_fn warpExpDom 5).1.warp = 0 ∧
    (warp_timer_fn warpExpDom 5).2 = true ∧
    (warpExpDom.warpu = 0 →
      (warp_timer_fn warpExpDom 5).1.warpback = 0 ∧
      (warp_timer_fn warpExpDom 5).1.unwarp_timer_armed = warpExpDom.unwarp_timer_armed) ∧
    (warpExpDom.warpu ≠ 0 →
      (warp_timer_fn warpExpDom 5).1.warpback = warpExpDom.warpback ∧
      (warp_timer_fn warpExpDom 5).1.unwarp_timer_armed = true ∧
      (warp_timer_fn warpExpDom 5).1.unwarp_timer_expires = 5 + warpExpDom.warpu) ∧
    (warpExpDom.warpback ≠ 0 → unwarp_timer_fn warpExpDom = ({ warpExpDom with warp := 1 }, true)) ∧
    (warpExpDom.warpback = 0 → unwarp_timer_fn warpExpDom = (warpExpDom, false)) :=
  warp_unwarp_timer_behavior warpExpDom 5

/-- Concrete malformed request: `mcu_adv = 0`. -/
def adjParamsZero : BvtAdjdom :=
  { mcu_adv := 0, warpback := 3, warpvalue := 4, warpl := 5, warpu := 6 }

/-- Concrete well-formed request with `warpback = 0`. -/
def adjParamsSeven : BvtAdjdom :=
  { mcu_adv := 7, warpback := 0, warpvalue := 4, warpl := 5, warpu := 6 }

/-- C9 (confirmed): a set-parameters request with `mcu_advance = 0` is
rejected synchronously with `-EINVAL` and mutates neither the domain's
scheduling record nor the request payload. -/
theorem bvt_adjdom_rejects_zero_mcu (d : Dom) (params : BvtAdjdom)
    (h : params.mcu_adv = 0) :
    bvt_adjdom d .put params = (-EINVAL, d, params) := by
  simp [bvt_adjdom, h]

/-- Witness for `bvt_adjdom_rejects_zero_mcu` at a concrete request. -/
theorem bvt_adjdom_rejects_zero_mcu_witness :
    adjParamsZero.mcu_adv = 0 ∧
    bvt_adjdom d0 .put adjParamsZero = (-EINVAL, d0, adjParamsZero) :=
  ⟨rfl, bvt_adjdom_rejects_zero_mcu d0 adjParamsZero rfl⟩

/-- C10 (confirmed): every successful PUT (nonzero `mcu_adv`) writes the
five requested parameters and, as a side effect, unconditionally sets the
`warp` flag to 1, regardless of the requested `warpback` and of the prior
`warp` state — the full resulting record is pinned down, so no other field
changes either. -/
theorem bvt_adjdom_put_sets_warp (d : Dom) (params : BvtAdjdom)
    (h : params.mcu_adv ≠ 0) :
    bvt_adjdom d .put params =
      (0,
       { d with mcu_advance := params.mcu_adv,
                warpback := params.warpback,
                warp := 1,
                warp_value := params.warpvalue,
                warpl := params.warpl,
                warpu := params.warpu },
       params) := by
  simp [bvt_adjdom, h]

/-- Witness for `bvt_adjdom_put_sets_warp`: a domain with `warp = 0` and a
request with `warpback = 0` still comes out with `warp = 1`. -/
theorem bvt_adjdom_put_sets_warp_witness :
    adjParamsSeven.mcu_adv ≠ 0 ∧ d0.warp = 0 ∧ adjParamsSeven.warpback = 0 ∧
    (bvt_adjdom d0 .put adjParamsSeven).2.1.warp = 1 := by
  refine ⟨by decide, by decide, by decide, ?_⟩
  rw [bvt_adjdom_put_sets_warp d0 adjParamsSeven (by decide)]

/-- Evaluation lemma for the two-task slice: when no `s32` overflow occurs
the C expression computes the exact mathematical value. -/
theorem slice_two_tasks_eval (ne npe mcu : Nat) (ctx : Int)
    (h1 : ne ≤ npe) (h2 : npe < u32Mod) (hc0 : 0 ≤ ctx)
    (hov : (npe - ne) / mcu + ctx.toNat < 2147483648) :
    slice_two_tasks ne npe mcu ctx = (((npe - ne) / mcu : Nat) : Int) + ctx := by
  unfold slice_two_tasks
  have e1 : (npe + u32Mod - ne) % u32Mod = npe - ne := by
    unfold u32Mod at *; omega
  rw [e1]
  generalize hq : (npe - ne) / mcu = q at hov ⊢
  have hu : u32ofInt ctx = ctx.toNat := by
    unfold u32ofInt
    have hcast : ((u32Mod : Nat) : Int) = 4294967296 := by norm_num [u32Mod]
    rw [hcast, Int.emod_eq_of_lt hc0 (by omega)]
  rw [hu]
  have e2 : (q + ctx.toNat) % u32Mod = q + ctx.toNat := by
    unfold u32Mod; omega
  unfold s32ofU32
  rw [e2, if_pos (by omega)]
  omega

/-- C5 counterexample: with `next.evt = 0`, `next_prime.evt = 0x80000000`,
`mcu_advance = 1` and the default `ctx_allow` of 5 ms, the claim's
hypotheses hold (`next_prime.evt ≥ next.evt`, nonzero `mcu_advance`), yet
the `s32` result of the slice expression is negative, so
`ASSERT(r_time >= ctx_allow)` fails. -/
theorem slice_two_tasks_s32_overflow :
    (0 : Nat) ≤ 2147483648 ∧ (1 : Nat) ≠ 0 ∧
    slice_two_tasks 0 2147483648 1 5000000 < 5000000 := by
  decide

/-- C5 (corrected): restricted to inputs where the `u32` quotient plus
`ctx_allow` stays below `2^31` (no `s32` overflow), the two-task slice is
at least `ctx_allow`, so the assertion holds there. -/
theorem slice_two_tasks_at_least_ctx_allow (ne npe mcu : Nat) (ctx : Int)
    (h1 : ne ≤ npe) (h2 : npe < u32Mod) (h3 : mcu ≠ 0) (hc0 : 0 ≤ ctx)
    (hov : (npe - ne) / mcu + ctx.toNat < 2147483648) :
    ctx ≤ slice_two_tasks ne npe mcu ctx := by
  rw [slice_two_tasks_eval ne npe mcu ctx h1 h2 hc0 hov]
  have : (0 : Int) ≤ (((npe - ne) / mcu : Nat) : Int) := Int.natCast_nonneg _
  omega

/-- Witness for `slice_two_tasks_at_least_ctx_allow` on the spec's
two-domain scenario (`evt` gap 50, weight 10, `ctx_allow` 5 ms). -/
theorem slice_two_tasks_at_least_ctx_allow_witness :
    ((0 : Nat) ≤ 50 ∧ (50 : Nat) < u32Mod ∧ (10 : Nat) ≠ 0 ∧
      (0 : Int) ≤ 5000000 ∧
      ((50 : Nat) - 0) / 10 + (5000000 : Int).toNat < 2147483648) ∧
    (5000000 : Int) ≤ slice_two_tasks 0 50 10 5000000 :=
  ⟨by decide,
    slice_two_tasks_at_least_ctx_allow 0 50 10 5000000 (by decide) (by decide)
      (by decide) (by decide) (by decide)⟩

/-- Concrete blocked domain with a stale low `evt` at rebase time. -/
def staleDom : Dom := { d0 with domid := 2, avt := 0xf0000000, evt := 0x10000000 }

/-- Concrete domain with high `avt` and `evt` at rebase time. -/
def bigDom : Dom := { d0 with domid := 3, avt := 0xf0000000, evt := 0xf0000000 }

/-- C2 counterexample: with `svt = 0xf0000000` the guard fires, but a
domain whose `evt` is below `0xe0000000` (a long-blocked domain with a
stale `evt`) wraps upward instead of decreasing by the constant, and the
pairwise `evt` ordering with another domain on the CPU is reversed. -/
theorem overflow_guard_wrap_around :
    (0xf0000000 : Nat) ≤ 0xf0000000 ∧
    staleDom.evt < bigDom.evt ∧
    (overflow_guard 0 [staleDom, bigDom] 0xf0000000).1.map Dom.evt =
      [0x30000000, 0x10000000] ∧
    ¬((0x30000000 : Nat) < 0x10000000) ∧
    (0x30000000 : Nat) + 0xe0000000 ≠ staleDom.evt := by
  decide

/-- C2 (corrected): when the guard fires, every domain of the task list on
this CPU has its `avt` and `evt` rewritten by `rebase_dom` and `svt` drops
by `0xe0000000`; provided each such domain's `avt` and `evt` are at least
`0xe0000000` (no `u32` wrap-around), the rebase decreases both fields by
exactly `0xe0000000` and preserves all pairwise `evt` orderings. -/
theorem overflow_guard_rebase (cpu : Nat) (doms : List Dom) (svt : Nat)
    (hsvt : 0xf0000000 ≤ svt)
    (hbound : ∀ d ∈ doms, d.processor = cpu →
      0xe0000000 ≤ d.avt ∧ d.avt < u32Mod ∧ 0xe0000000 ≤ d.evt ∧ d.evt < u32Mod) :
    (overflow_guard cpu doms svt).1 =
      doms.map (fun d => if d.processor = cpu then rebase_dom d else d) ∧
    (overflow_guard cpu doms svt).2 + 0xe0000000 = svt ∧
    (∀ d ∈ doms, d.processor = cpu →
      (rebase_dom d).avt + 0xe0000000 = d.avt ∧
      (rebase_dom d).evt + 0xe0000000 = d.evt) ∧
    (∀ d1 ∈ doms, ∀ d2 ∈ doms, d1.processor = cpu → d2.processor = cpu →
      ((rebase_dom d1).evt < (rebase_dom d2).evt ↔ d1.evt < d2.evt)) := by
  refine ⟨?_, ?_, ?_, ?_⟩
  · unfold overflow_guard; rw [if_pos hsvt]
  · unfold overflow_guard; rw [if_pos hsvt]; omega
  · intro d hd hp
    obtain ⟨a1, a2, a3, a4⟩ := hbound d hd hp
    simp only [rebase_dom]
    unfold u32Mod at *
    constructor <;> omega
  · intro d1 hd1 d2 hd2 hp1 hp2
    obtain ⟨a1, a2, a3, a4⟩ := hbound d1 hd1 hp1
    obtain ⟨b1, b2, b3, b4⟩ := hbound d2 hd2 hp2
    simp only [rebase_dom]
    unfold u32Mod at *
    omega

/-- Concrete domain just past the high-water mark. -/
def hiDom : Dom := { d0 with domid := 4, avt := 0xf0000001, evt := 0xf0000001 }

/-- Witness for `overflow_guard_rebase`: the spec's scenario domain at
`avt = 0xf0000001` with `svt = 0xf0000000`. -/
theorem overflow_guard_rebase_witness :
    ((0xf0000000 : Nat) ≤ 0xf0000000 ∧
      (∀ d ∈ [hiDom], d.processor = 0 →
        0xe0000000 ≤ d.avt ∧ d.avt < u32Mod ∧ 0xe0000000 ≤ d.evt ∧ d.evt < u32Mod)) ∧
    ((overflow_guard 0 [hiDom] 0xf0000000).1 =
        [hiDom].map (fun d => if d.processor = 0 then rebase_dom d else d) ∧
      (overflow_guard 0 [hiDom] 0xf0000000).2 + 0xe0000000 = 0xf0000000 ∧
      (∀ d ∈ [hiDom], d.processor = 0 →
        (rebase_dom d).avt + 0xe0000000 = d.avt ∧
        (rebase_dom d).evt + 0xe0000000 = d.evt) ∧
      (∀ d1 ∈ [hiDom], ∀ d2 ∈ [hiDom], d1.processor = 0 → d2.processor = 0 →
        ((rebase_dom d1).evt < (rebase_dom d2).evt ↔ d1.evt < d2.evt))) :=
  ⟨⟨by decide, by decide⟩,
    overflow_guard_rebase 0 [hiDom] 0xf0000000 (by decide) (by decide)⟩

/-- Concrete non-idle previous domain with both timers armed. -/
def prevDomC : Dom :=
  { d0 with domid := 5, warp_timer_armed := true, unwarp_timer_armed := true }

/-- C8 counterexample: on the fold-back path the previously running
domain's warp timer is cancelled but its unwarp timer stays armed, so
"both pending timers are cancelled" fails on the code. -/
theorem foldPrev_leaves_unwarp_timer :
    is_idle_task prevDomC = false ∧
    (foldPrev [prevDomC] prevDomC 0).2.warp_timer_armed = false ∧
    (foldPrev [prevDomC] prevDomC 0).2.unwarp_timer_armed = true := by
  decide

/-- C8 (corrected): on every reschedule with a non-idle previous domain,
only the warp-expiry timer is cancelled (via the idempotent
`rem_ac_timer`, a no-op on an unarmed timer); the unwarp-expiry timer is
left exactly as it was, and the domain is re-inserted at the run-queue
tail when still runnable, otherwise left off the queue. -/
theorem foldPrev_cancels_warp_timer_only (queue : List Dom) (prev : Dom)
    (now : Int) (h : is_idle_task prev = false) :
    (foldPrev queue prev now).2.warp_timer_armed = false ∧
    (foldPrev queue prev now).2.unwarp_timer_armed = prev.unwarp_timer_armed ∧
    (prev.runnable = true →
      (foldPrev queue prev now).1 =
        queue.filter (fun p => p.domid != prev.domid) ++
          [(foldPrev queue prev now).2]) ∧
    (prev.runnable = false →
      (foldPrev queue prev now).1 =
        queue.filter (fun p => p.domid != prev.domid)) ∧
    rem_ac_timer false = false := by
  by_cases hr : prev.runnable <;>
    simp [foldPrev, rem_ac_timer, h, hr]

/-- Witness for `foldPrev_cancels_warp_timer_only` at a concrete queue. -/
theorem foldPrev_cancels_warp_timer_only_witness :
    is_idle_task prevDomC = false ∧
    ((foldPrev [prevDomC] prevDomC 7).2.warp_timer_armed = false ∧
      (foldPrev [prevDomC] prevDomC 7).2.unwarp_timer_armed =
        prevDomC.unwarp_timer_armed ∧
      (prevDomC.runnable = true →
        (foldPrev [prevDomC] prevDomC 7).1 =
          [prevDomC].filter (fun p => p.domid != prevDomC.domid) ++
            [(foldPrev [prevDomC] prevDomC 7).2]) ∧
      (prevDomC.runnable = false →
        (foldPrev [prevDomC] prevDomC 7).1 =
          [prevDomC].filter (fun p => p.domid != prevDomC.domid)) ∧
      rem_ac_timer false = false) :=
  ⟨by decide, foldPrev_cancels_warp_timer_only [prevDomC] prevDomC 7 (by decide)⟩

/-- C3 (confirmed): waking a blocked domain (one not on the run queue)
re-bases its `avt` to `svt` exactly when its `avt` trails `svt` or the
domain was migrated, recomputes `evt` from the (possibly re-based) `avt`
and the warp state, inserts the record at the head of the run queue, raises
an immediate reschedule iff the current domain is idle or the woken
domain's `evt` does not exceed the current domain's recomputed `evt`, and
otherwise tightens the armed reschedule deadline to the woken domain's
catch-up time `r_time` when that deadline lies beyond it. -/
theorem bvt_wake_behavior (d : Dom) (q : List Dom) (svt : Nat) (curr : Dom)
    (now ste ctx : Int) (hnot : ∀ p ∈ q, p.domid ≠ d.domid) :
    (bvt_wake d q svt curr now ste ctx).dom.avt =
        (if d.avt < svt ∨ d.migrated then svt else d.avt) ∧
    (bvt_wake d q svt curr now ste ctx).dom.evt =
        calc_evt d (bvt_wake d q svt curr now ste ctx).dom.avt ∧
    (bvt_wake d q svt curr now ste ctx).runqueue =
        (bvt_wake d q svt curr now ste ctx).dom :: q ∧
    ((bvt_wake d q svt curr now ste ctx).raised = true ↔
        (is_idle_task curr ∨
          (bvt_wake d q svt curr now ste ctx).dom.evt ≤
            calc_evt curr (calc_avt curr now))) ∧
    ((bvt_wake d q svt curr now ste ctx).raised = true →
        (bvt_wake d q svt curr now ste ctx).s_timer_expires = ste) ∧
    ((bvt_wake d q svt curr now ste ctx).raised = false →
        (bvt_wake d q svt curr now ste ctx).s_timer_expires =
          (if curr.lastschd +
                (((((bvt_wake d q svt curr now ste ctx).dom.evt + u32Mod -
                      calc_evt curr (calc_avt curr now)) % u32Mod) /
                    curr.mcu_advance : Nat) : Int) + ctx < ste
            then curr.lastschd +
                (((((bvt_wake d q svt curr now ste ctx).dom.evt + u32Mod -
                      calc_evt curr (calc_avt curr now)) % u32Mod) /
                    curr.mcu_advance : Nat) : Int) + ctx
            else ste)) := by
  have hany : (q.any fun p => p.domid == d.domid) = false := by
    rw [List.any_eq_false]
    intro p hp
    simpa using hnot p hp
  unfold bvt_wake
  simp only [hany, Bool.false_eq_true, if_false]
  split_ifs with h1 h2 h3 <;> simp_all

/-- Concrete current domain for the wake witness. -/
def currDom : Dom := { d0 with domid := 6, avt := 100, evt := 100 }

/-- Concrete woken domain for the wake witness (stale `avt` below `svt`). -/
def wokenDom : Dom := { d0 with domid := 7, avt := 40, evt := 40 }

/-- Witness for `bvt_wake_behavior`: waking `wokenDom` (`avt = 40`) on a
CPU with `svt = 50` and current domain `currDom`. -/
theorem bvt_wake_behavior_witness :
    (∀ p ∈ [currDom, idleDom], p.domid ≠ wokenDom.domid) ∧
    ((bvt_wake wokenDom [currDom, idleDom] 50 currDom 0 999999999 5000000).dom.avt =
        (if wokenDom.avt < 50 ∨ wokenDom.migrated then 50 else wokenDom.avt) ∧
      (bvt_wake wokenDom [currDom, idleDom] 50 currDom 0 999999999 5000000).dom.evt =
        calc_evt wokenDom
          (bvt_wake wokenDom [currDom, idleDom] 50 currDom 0 999999999 5000000).dom.avt ∧
      (bvt_wake wokenDom [currDom, idleDom] 50 currDom 0 999999999 5000000).runqueue =
        (bvt_wake wokenDom [currDom, idleDom] 50 currDom 0 999999999 5000000).dom ::
          [currDom, idleDom] ∧
      ((bvt_wake wokenDom [currDom, idleDom] 50 currDom 0 999999999 5000000).raised = true ↔
        (is_idle_task currDom ∨
          (bvt_wake wokenDom [currDom, idleDom] 50 currDom 0 999999999 5000000).dom.evt ≤
            calc_evt currDom (calc_avt currDom 0))) ∧
      ((bvt_wake wokenDom [currDom, idleDom] 50 currDom 0 999999999 5000000).raised = true →
        (bvt_wake wokenDom [currDom, idleDom] 50 currDom 0 999999999 5000000).s_timer_expires =
          999999999) ∧
      ((bvt_wake wokenDom [currDom, idleDom] 50 currDom 0 999999999 5000000).raised = false →
        (bvt_wake wokenDom [currDom, idleDom] 50 currDom 0 999999999 5000000).s_timer_expires =
          (if currDom.lastschd +
                (((((bvt_wake wokenDom [currDom, idleDom] 50 currDom 0 999999999
                        5000000).dom.evt + u32Mod -
                      calc_evt currDom (calc_avt currDom 0)) % u32Mod) /
                    currDom.mcu_advance : Nat) : Int) + 5000000 < 999999999
            then currDom.lastschd +
                (((((bvt_wake wokenDom [currDom, idleDom] 50 currDom 0 999999999
                        5000000).dom.evt + u32Mod -
                      calc_evt currDom (calc_avt currDom 0)) % u32Mod) /
                    currDom.mcu_advance : Nat) : Int) + 5000000
            else 999999999))) :=
  ⟨by decide,
    bvt_wake_behavior wokenDom [currDom, idleDom] 50 currDom 0 999999999 5000000
      (by decide)⟩

theorem firstMin_cons (x : Dom) (l : List Dom) :
    firstMin (x :: l) =
      (match firstMin l with
        | none => some x
        | some q => if q.evt < x.evt then some q else some x) := rfl

theorem firstMin_eq_none_iff (l : List Dom) : firstMin l = none ↔ l = [] := by
  cases l with
  | nil => simp [firstMin]
  | cons p t =>
    rw [firstMin_cons]
    cases h : firstMin t with
    | none => simp
    | some q =>
      constructor
      · intro hc
        have hc2 : (if q.evt < p.evt then some q else some p) = (none : Option Dom) := hc
        split_ifs at hc2 <;> simp at hc2
      · intro hc
        simp at hc

theorem firstMin_mem {l : List Dom} {dm : Dom} (h : firstMin l = some dm) :
    dm ∈ l := by
  induction l generalizing dm with
  | nil => cases h
  | cons p t ih =>
    rw [firstMin_cons] at h
    cases hft : firstMin t with
    | none => simp only [hft] at h; simp at h; simp [h]
    | some q =>
      simp only [hft] at h
      by_cases hlt : q.evt < p.evt
      · rw [if_pos hlt] at h
        simp at h
        subst h
        exact List.mem_cons_of_mem _ (ih hft)
      · rw [if_neg hlt] at h
        simp at h
        simp [h]

theorem firstMin_le {l : List Dom} {dm : Dom} (h : firstMin l = some dm) :
    ∀ p ∈ l, dm.evt ≤ p.evt := by
  induction l generalizing dm with
  | nil => cases h
  | cons p t ih =>
    rw [firstMin_cons] at h
    cases hft : firstMin t with
    | none =>
      simp only [hft] at h; simp at h
      have ht : t = [] := (firstMin_eq_none_iff t).1 hft
      subst ht; subst h
      intro x hx; simp at hx; subst hx; exact le_refl _
    | some q =>
      simp only [hft] at h
      by_cases hlt : q.evt < p.evt
      · rw [if_pos hlt] at h
        simp at h; subst h
        intro x hx
        rcases List.mem_cons.1 hx with rfl | hx
        · exact le_of_lt hlt
        · exact ih hft x hx
      · rw [if_neg hlt] at h
        simp at h; subst h
        intro x hx
        rcases List.mem_cons.1 hx with rfl | hx
        · exact le_refl _
        · exact le_trans (not_lt.1 hlt) (ih hft x hx)

theorem firstMin_concat (l : List Dom) (p : Dom) :
    firstMin (l ++ [p]) =
      (match firstMin l with
        | none => some p
        | some q => if q.evt ≤ p.evt then some q else some p) := by
  induction l with
  | nil => simp [firstMin]
  | cons x t ih =>
    rw [List.cons_append, firstMin_cons, firstMin_cons, ih]
    cases hft : firstMin t with
    | none =>
      simp only [hft]
      split_ifs <;> first | rfl | (exfalso; omega)
    | some q =>
      simp only [hft]
      by_cases c1 : q.evt ≤ p.evt <;>
        by_cases c2 : q.evt < x.evt <;>
          by_cases c3 : p.evt < x.evt <;>
            by_cases c4 : x.evt ≤ p.evt <;>
              simp [c1, c2, c3, c4] <;> (exfalso; omega)

theorem firstMin_isFirstMinAt {l : List Dom} {dm : Dom}
    (h : firstMin l = some dm) : ∃ j, IsFirstMinAt l j dm := by
  induction l generalizing dm with
  | nil => cases h
  | cons p t ih =>
    rw [firstMin_cons] at h
    cases hft : firstMin t with
    | none =>
      simp only [hft] at h; simp at h
      have ht : t = [] := (firstMin_eq_none_iff t).1 hft
      subst ht; subst h
      exact ⟨0, by simp, by simp, by intro x hx; simp at hx; subst hx; exact le_refl _,
        by intro k hk hk0; omega⟩
    | some q =>
      simp only [hft] at h
      by_cases hlt : q.evt < p.evt
      · rw [if_pos hlt] at h
        simp at h; subst h
        obtain ⟨j, hj, hget, hle, hstrict⟩ := ih hft
        refine ⟨j + 1, by simpa using Nat.succ_lt_succ hj, by simpa using hget, ?_, ?_⟩
        · intro x hx
          rcases List.mem_cons.1 hx with rfl | hx
          · exact le_of_lt hlt
          · exact hle x hx
        · intro k hk hkj
          cases k with
          | zero => simpa using hlt
          | succ k' =>
            have hk' : k' < t.length := by simpa using hk
            have := hstrict k' hk' (by omega)
            simpa using this
      · rw [if_neg hlt] at h
        simp at h; subst h
        refine ⟨0, by simp, by simp, ?_, by intro k hk hk0; omega⟩
        intro x hx
        rcases List.mem_cons.1 hx with rfl | hx
        · exact le_refl _
        · exact le_trans (not_lt.1 hlt) (firstMin_le hft x hx)

theorem firstMin_of_decomp (a : List Dom) (b : List Dom) (dm : Dom)
    (hstrict : ∀ x ∈ a, dm.evt < x.evt)
    (hle : ∀ x ∈ a ++ dm :: b, dm.evt ≤ x.evt) :
    firstMin (a ++ dm :: b) = some dm := by
  induction a with
  | nil =>
    rw [List.nil_append, firstMin_cons]
    cases hfb : firstMin b with
    | none => rfl
    | some q =>
      have hq : dm.evt ≤ q.evt := by
        refine hle q ?_
        simpa using List.mem_cons_of_mem _ (firstMin_mem hfb)
      simp only [hfb]
      rw [if_neg (not_lt.2 hq)]
  | cons x a' ih =>
    rw [List.cons_append, firstMin_cons,
      ih (fun y hy => hstrict y (List.mem_cons_of_mem _ hy))
        (fun y hy => hle y (by simpa using Or.inr (by simpa using hy)))]
    show (if dm.evt < x.evt then some dm else some x) = some dm
    rw [if_pos (hstrict x (List.mem_cons_self _ _))]

theorem eraseIdx_append_middle (a b : List Dom) (dm : Dom) :
    (a ++ dm :: b).eraseIdx a.length = a ++ b := by
  induction a with
  | nil => simp
  | cons x a' ih => simp [List.eraseIdx, ih]

theorem scanWf_init (idle : Dom) (h : idle.evt = u32Max) :
    ScanWf (scanInit idle) := by
  refine ⟨h.symm, ?_, le_refl _⟩
  intro np hnp
  simp [scanInit] at hnp

theorem scanStep_next (s : ScanState) (p : Dom) :
    (scanStep s p).next = if p.evt < s.next_evt then p else s.next := by
  unfold scanStep
  simp only []
  split_ifs <;> rfl

theorem scanStep_next_evt (s : ScanState) (p : Dom) :
    (scanStep s p).next_evt = if p.evt < s.next_evt then p.evt else s.next_evt := by
  unfold scanStep
  simp only []
  split_ifs <;> rfl

theorem scanStep_prime (s : ScanState) (p : Dom) :
    (scanStep s p).next_prime =
      if p.evt < s.next_evt then some s.next
      else if s.next_prime_evt = u32Max then some p
      else if p.evt < s.next_prime_evt then some p
      else s.next_prime := by
  unfold scanStep
  simp only []
  split_ifs <;> rfl

theorem scanStep_prime_evt (s : ScanState) (p : Dom) :
    (scanStep s p).next_prime_evt =
      if p.evt < s.next_evt then s.next_evt
      else if s.next_prime_evt = u32Max then p.evt
      else if p.evt < s.next_prime_evt then p.evt
      else s.next_prime_evt := by
  unfold scanStep
  simp only []
  split_ifs <;> rfl

theorem scanStep_min_avt (s : ScanState) (p : Dom) :
    (scanStep s p).min_avt =
      if p.avt < s.min_avt then p.avt else s.min_avt := by
  unfold scanStep
  simp only []
  split_ifs <;> rfl

theorem scanWf_step (s : ScanState) (p : Dom) (h : ScanWf s) :
    ScanWf (scanStep s p) := by
  obtain ⟨h1, h2, h3⟩ := h
  refine ⟨?_, ?_, ?_⟩
  · rw [scanStep_next_evt, scanStep_next]
    split_ifs with c1
    · rfl
    · exact h1
  · intro np
    rw [scanStep_prime, scanStep_prime_evt]
    split_ifs with c1 c2 c3
    · intro hnp
      injection hnp with hnp
      rw [← hnp, ← h1]
    · intro hnp
      injection hnp with hnp
      rw [← hnp]
    · intro hnp
      injection hnp with hnp
      rw [← hnp]
    · exact h2 np
  · rw [scanStep_next_evt, scanStep_prime_evt]
    split_ifs with c1 c2 c3
    · exact le_of_lt c1
    · exact not_lt.1 c1
    · exact not_lt.1 c1
    · exact h3

theorem scanWf_queue (idle : Dom) (q : List Dom) (h : idle.evt = u32Max) :
    ScanWf (scanQueue idle q) := by
  suffices H : ∀ (l : List Dom) (s : ScanState), ScanWf s → ScanWf (l.foldl scanStep s) by
    exact H q _ (scanWf_init idle h)
  intro l
  induction l with
  | nil => intro s hs; exact hs
  | cons p t ih => intro s hs; exact ih _ (scanWf_step s p hs)

theorem scanInv_step (idle : Dom) (q : List Dom) (p : Dom)
    (hq : ∀ x ∈ idle :: q, x.evt < u32Max ∨ x = idle)
    (hp : p.evt < u32Max ∨ p = idle)
    (hinv : ScanInv idle q (scanQueue idle q)) :
    ScanInv idle (q ++ [p]) (scanQueue idle (q ++ [p])) := by
  obtain ⟨l1, l2, hdec, hstrict, hle, hne, hprime, hpe, hmin⟩ := hinv
  have hstep : scanQueue idle (q ++ [p]) = scanStep (scanQueue idle q) p := by
    unfold scanQueue; rw [List.foldl_append]; rfl
  set s := scanQueue idle q with hs
  rw [hstep]
  have hconsapp : idle :: (q ++ [p]) = (idle :: q) ++ [p] := by simp
  have hmem12 : ∀ x, x ∈ l1 ++ l2 → x ∈ idle :: q := by
    intro x hx
    rw [hdec]
    rcases List.mem_append.1 hx with hx | hx
    · exact List.mem_append_left _ hx
    · exact List.mem_append_right _ (List.mem_cons_of_mem _ hx)
  have hmin' : (scanStep s p).min_avt =
      (q ++ [p]).foldl (fun m x => if x.avt < m then x.avt else m) u32Max := by
    rw [List.foldl_append, scanStep_min_avt, hmin]
    rfl
  by_cases c1 : p.evt < s.next_evt
  · -- the new entry becomes the winner
    have hnext : (scanStep s p).next = p := by rw [scanStep_next, if_pos c1]
    have hnevt : (scanStep s p).next_evt = p.evt := by
      rw [scanStep_next_evt, if_pos c1]
    have hpr : (scanStep s p).next_prime = some s.next := by
      rw [scanStep_prime, if_pos c1]
    have hprevt : (scanStep s p).next_prime_evt = s.next_evt := by
      rw [scanStep_prime_evt, if_pos c1]
    have hlt : ∀ x ∈ idle :: q, p.evt < x.evt := by
      intro x hx
      exact lt_of_lt_of_le (hne ▸ c1) (hle x hx)
    refine ⟨l1 ++ s.next :: l2, [], ?_, ?_, ?_, ?_, ?_, ?_, hmin'⟩
    · rw [hnext, hconsapp, hdec]
    · intro x hx
      rw [hnext]
      exact hlt x (hdec ▸ hx)
    · intro x hx
      rw [hnext]
      rcases List.mem_cons.1 hx with rfl | hx2
      · exact le_of_lt (hlt _ (List.mem_cons_self _ _))
      · rcases List.mem_append.1 hx2 with hq2 | hp2
        · exact le_of_lt (hlt _ (List.mem_cons_of_mem _ hq2))
        · have hxp : x = p := by simpa using hp2
          rw [hxp]
    · rw [hnevt, hnext]
    · rw [hpr, List.append_nil]
      exact (firstMin_of_decomp l1 l2 s.next hstrict
        (fun x hx => hle x (hdec ▸ hx))).symm
    · right
      exact ⟨s.next, hpr, by rw [hprevt, hne]⟩
  · -- the winner is unchanged
    have c1' : s.next.evt ≤ p.evt := by rw [← hne]; exact not_lt.1 c1
    have hnext : (scanStep s p).next = s.next := by rw [scanStep_next, if_neg c1]
    have hnevt : (scanStep s p).next_evt = s.next_evt := by
      rw [scanStep_next_evt, if_neg c1]
    have hdec' : idle :: (q ++ [p]) = l1 ++ (scanStep s p).next :: (l2 ++ [p]) := by
      rw [hnext, hconsapp, hdec]
      simp
    have hstrict' : ∀ x ∈ l1, (scanStep s p).next.evt < x.evt := by
      rw [hnext]; exact hstrict
    have hle' : ∀ x ∈ idle :: (q ++ [p]), (scanStep s p).next.evt ≤ x.evt := by
      rw [hnext]
      intro x hx
      rcases List.mem_cons.1 hx with rfl | hx2
      · exact hle _ (List.mem_cons_self _ _)
      · rcases List.mem_append.1 hx2 with hq2 | hp2
        · exact hle _ (List.mem_cons_of_mem _ hq2)
        · have hxp : x = p := by simpa using hp2
          rw [hxp]; exact c1'
    have hne' : (scanStep s p).next_evt = (scanStep s p).next.evt := by
      rw [hnevt, hnext]; exact hne
    have hfc := firstMin_concat (l1 ++ l2) p
    by_cases c2 : s.next_prime_evt = u32Max
    · have hpr : (scanStep s p).next_prime = some p := by
        rw [scanStep_prime, if_neg c1, if_pos c2]
      have hprevt : (scanStep s p).next_prime_evt = p.evt := by
        rw [scanStep_prime_evt, if_neg c1, if_pos c2]
      refine ⟨l1, l2 ++ [p], hdec', hstrict', hle', hne', ?_, ?_, hmin'⟩
      · rw [hpr, ← List.append_assoc, hfc]
        rcases hpe with ⟨hnone, _⟩ | ⟨np, hsome, hnp⟩
        · rw [← hprime, hnone]
        · have hnpevt : np.evt = u32Max := by rw [← hnp]; exact c2
          have hfmnp : firstMin (l1 ++ l2) = some np := by rw [← hprime]; exact hsome
          rw [hfmnp]
          show some p = if np.evt ≤ p.evt then some np else some p
          have hnpidle : np = idle := by
            rcases hq np (hmem12 np (firstMin_mem hfmnp)) with hlt2 | heq
            · exact absurd hnpevt (Nat.ne_of_lt hlt2)
            · exact heq
          rcases hp with hplt | hpidle
          · have hgt : p.evt < np.evt := by rw [hnpevt]; exact hplt
            rw [if_neg (not_le.2 hgt)]
          · have hnpp : np = p := by rw [hnpidle, hpidle]
            rw [hnpp, if_pos (le_refl _)]
      · right; exact ⟨p, hpr, hprevt⟩
    · rcases hpe with ⟨_, hpeM⟩ | ⟨np, hsome, hnp⟩
      · exact absurd hpeM c2
      · have hfmnp : firstMin (l1 ++ l2) = some np := by rw [← hprime]; exact hsome
        by_cases c3 : p.evt < s.next_prime_evt
        · have hpr : (scanStep s p).next_prime = some p := by
            rw [scanStep_prime, if_neg c1, if_neg c2, if_pos c3]
          have hprevt : (scanStep s p).next_prime_evt = p.evt := by
            rw [scanStep_prime_evt, if_neg c1, if_neg c2, if_pos c3]
          refine ⟨l1, l2 ++ [p], hdec', hstrict', hle', hne', ?_, ?_, hmin'⟩
          · rw [hpr, ← List.append_assoc, hfc, hfmnp]
            show some p = if np.evt ≤ p.evt then some np else some p
            have hgt : p.evt < np.evt := by rw [← hnp]; exact c3
            rw [if_neg (not_le.2 hgt)]
          · right; exact ⟨p, hpr, hprevt⟩
        · have hpr : (scanStep s p).next_prime = s.next_prime := by
            rw [scanStep_prime, if_neg c1, if_neg c2, if_neg c3]
          have hprevt : (scanStep s p).next_prime_evt = s.next_prime_evt := by
            rw [scanStep_prime_evt, if_neg c1, if_neg c2, if_neg c3]
          refine ⟨l1, l2 ++ [p], hdec', hstrict', hle', hne', ?_, ?_, hmin'⟩
          · rw [hpr, ← List.append_assoc, hfc, hfmnp, hsome]
            show some np = if np.evt ≤ p.evt then some np else some p
            have hgt : np.evt ≤ p.evt := by rw [← hnp]; exact not_lt.1 c3
            rw [if_pos hgt]
          · right; exact ⟨np, by rw [hpr]; exact hsome, by rw [hprevt]; exact hnp⟩

theorem scanInv_holds (idle : Dom) (hIdle : idle.evt = u32Max) (q : List Dom)
    (hq : ∀ x ∈ q, x.evt < u32Max ∨ x = idle) :
    ScanInv idle q (scanQueue idle q) := by
  induction q using List.reverseRecOn with
  | nil =>
    refine ⟨[], [], rfl, ?_, ?_, hIdle.symm, rfl, Or.inl ⟨rfl, rfl⟩, rfl⟩
    · intro x hx; simp at hx
    · intro x hx
      have hxi : x = idle := by simpa using hx
      rw [hxi]
      exact le_refl idle.evt
  | append_singleton q' p ih =>
    have hq' : ∀ x ∈ q', x.evt < u32Max ∨ x = idle :=
      fun x hx => hq x (List.mem_append_left _ hx)
    have hp : p.evt < u32Max ∨ p = idle := hq p (by simp)
    have hq2 : ∀ x ∈ idle :: q', x.evt < u32Max ∨ x = idle := by
      intro x hx
      rcases List.mem_cons.1 hx with rfl | hx2
      · exact Or.inr rfl
      · exact hq' x hx2
    exact scanInv_step idle q' p hq2 hp (ih hq')

theorem foldl_min_avt (l : List Dom) : ∀ init : Nat,
    (l.foldl (fun m p => if p.avt < m then p.avt else m) init = init ∨
      l.foldl (fun m p => if p.avt < m then p.avt else m) init ∈ l.map Dom.avt) ∧
    l.foldl (fun m p => if p.avt < m then p.avt else m) init ≤ init ∧
    ∀ p ∈ l, l.foldl (fun m p => if p.avt < m then p.avt else m) init ≤ p.avt := by
  induction l with
  | nil =>
    intro init
    exact ⟨Or.inl rfl, le_refl _, by intro p hp; simp at hp⟩
  | cons x t ih =>
    intro init
    rw [List.foldl_cons]
    by_cases h : x.avt < init
    · rw [if_pos h]
      obtain ⟨hin, hle, hall⟩ := ih x.avt
      refine ⟨?_, le_trans hle (le_of_lt h), ?_⟩
      · rcases hin with he | hm
        · right; rw [he]; simp
        · right; simp only [List.map_cons]; exact List.mem_cons_of_mem _ hm
      · intro p hp
        rcases List.mem_cons.1 hp with rfl | hp2
        · exact hle
        · exact hall p hp2
    · rw [if_neg h]
      obtain ⟨hin, hle, hall⟩ := ih init
      refine ⟨?_, hle, ?_⟩
      · rcases hin with he | hm
        · exact Or.inl he
        · right; simp only [List.map_cons]; exact List.mem_cons_of_mem _ hm
      · intro p hp
        rcases List.mem_cons.1 hp with rfl | hp2
        · exact le_trans hle (not_lt.1 h)
        · exact hall p hp2

theorem isFirstMinAt_of_decomp (a b : List Dom) (dm : Dom)
    (hstrict : ∀ x ∈ a, dm.evt < x.evt)
    (hle : ∀ x ∈ a ++ dm :: b, dm.evt ≤ x.evt) :
    IsFirstMinAt (a ++ dm :: b) a.length dm := by
  induction a with
  | nil =>
    refine ⟨by simp, rfl, hle, ?_⟩
    intro k hk hk0
    exact absurd hk0 (by simp)
  | cons x a' ih =>
    have hstrict' : ∀ y ∈ a', dm.evt < y.evt :=
      fun y hy => hstrict y (List.mem_cons_of_mem _ hy)
    have hle' : ∀ y ∈ a' ++ dm :: b, dm.evt ≤ y.evt :=
      fun y hy => hle y (List.mem_cons_of_mem _ hy)
    obtain ⟨hj, hget, _, hstrictj⟩ := ih hstrict' hle'
    rw [List.cons_append]
    refine ⟨by simpa using Nat.succ_lt_succ hj, by simpa using hget, ?_, ?_⟩
    · intro y hy
      refine hle y ?_
      simpa using hy
    · intro k hk hkj
      cases k with
      | zero => simpa using hstrict x (List.mem_cons_self _ _)
      | succ k' =>
        have hk' : k' < (a' ++ dm :: b).length := by simpa using hk
        have hk'' : k' < a'.length := by simpa using hkj
        simpa using hstrictj k' hk' hk''

/-- C4 (confirmed): on a run queue that carries the idle sentinel (the
idle record of this CPU, with maximal `evt`, all other entries strictly
below the sentinel value) and holds at least two entries, the single scan
of `bvt_do_schedule` returns as winner the record with the smallest `evt`
(ties broken by queue position, earlier wins), as runner-up the record
with the second-smallest `evt` (the first minimum of the queue with the
winner's position removed), and, for the SVT update, the minimum `avt`
over all scanned entries. -/
theorem scan_returns_min_two (idle : Dom) (q : List Dom)
    (hIdle : idle.evt = u32Max)
    (hmem : idle ∈ q)
    (hcls : ∀ x ∈ q, x.evt < u32Max ∨ x = idle)
    (havt : ∀ x ∈ q, x.avt ≤ u32Max)
    (hlen : 2 ≤ q.length) :
    (∃ j, IsFirstMinAt q j (scanQueue idle q).next ∧
      ∃ np, (scanQueue idle q).next_prime = some np ∧
        ∃ i, IsFirstMinAt (q.eraseIdx j) i np) ∧
    (scanQueue idle q).min_avt ∈ q.map Dom.avt ∧
    ∀ x ∈ q, (scanQueue idle q).min_avt ≤ x.avt := by
  obtain ⟨l1, l2, hdec, hstrict, hle, hne, hprime, hpe, hmin⟩ :=
    scanInv_holds idle hIdle q hcls
  set s := scanQueue idle q with hs
  constructor
  · cases l1 with
    | nil =>
      have h12 := hdec
      rw [List.nil_append] at h12
      injection h12 with hh ht
      have hsM : s.next.evt = u32Max := by rw [← hh, hIdle]
      have hallM : ∀ x ∈ q, x = idle := by
        intro x hx
        rcases hcls x hx with hlt | he
        · exfalso
          have h5 := hle x (List.mem_cons_of_mem _ hx)
          rw [hsM] at h5
          exact absurd hlt (not_lt.2 h5)
        · exact he
      obtain ⟨x0, t0, rfl⟩ : ∃ x0 t0, q = x0 :: t0 := by
        cases q with
        | nil => simp at hmem
        | cons a b => exact ⟨a, b, rfl⟩
      have hx0 : x0 = idle := hallM x0 (List.mem_cons_self _ _)
      have hprq : s.next_prime = firstMin (x0 :: t0) := by
        rw [hprime, List.nil_append, ← ht]
      refine ⟨0, ⟨by simp, ?_, ?_, by intro k hk hk0; omega⟩, ?_⟩
      · show x0 = s.next
        rw [hx0]; exact hh
      · intro x hx
        exact hle x (List.mem_cons_of_mem _ hx)
      · cases hfm : firstMin (x0 :: t0) with
        | none =>
          have := (firstMin_eq_none_iff _).1 hfm
          simp at this
        | some np =>
          have hnp_idle : np = idle := hallM np (firstMin_mem hfm)
          obtain ⟨y0, t1, rfl⟩ : ∃ y0 t1, t0 = y0 :: t1 := by
            cases t0 with
            | nil => simp at hlen
            | cons a b => exact ⟨a, b, rfl⟩
          have hy0 : y0 = idle := hallM y0 (by simp)
          refine ⟨np, by rw [hprq, hfm], 0, by simp, ?_, ?_, ?_⟩
          · show y0 = np
            rw [hy0, hnp_idle]
          · intro x hx
            have hx2 : x = idle := hallM x (List.mem_cons_of_mem _ hx)
            rw [hx2, hnp_idle]
          · intro k hk hk0; omega
    | cons x1 l1t =>
      have h12 := hdec
      rw [List.cons_append] at h12
      injection h12 with hh ht
      have hstrict1 : ∀ y ∈ l1t, s.next.evt < y.evt :=
        fun y hy => hstrict y (List.mem_cons_of_mem _ hy)
      have hleq : ∀ y ∈ l1t ++ s.next :: l2, s.next.evt ≤ y.evt := by
        intro y hy
        refine hle y (List.mem_cons_of_mem _ ?_)
        rw [ht]; exact hy
      have hwin := isFirstMinAt_of_decomp l1t l2 s.next hstrict1 hleq
      have herase : q.eraseIdx l1t.length = l1t ++ l2 := by
        rw [ht, eraseIdx_append_middle]
      refine ⟨l1t.length, by rw [ht]; exact hwin, ?_⟩
      have hprq : s.next_prime = firstMin (idle :: (l1t ++ l2)) := by
        rw [hprime, List.cons_append, ← hh]
      rw [firstMin_cons] at hprq
      cases hfm : firstMin (l1t ++ l2) with
      | none =>
        exfalso
        have hemp := (firstMin_eq_none_iff _).1 hfm
        obtain ⟨he1, he2⟩ := List.append_eq_nil.1 hemp
        have hq1 : q = [s.next] := by rw [ht, he1, he2]; rfl
        have hidle_eq : idle = s.next := by
          rw [hq1] at hmem
          simpa using hmem
        have hlt := hstrict x1 (List.mem_cons_self _ _)
        rw [← hh, ← hidle_eq] at hlt
        exact lt_irrefl _ hlt
      | some np0 =>
        rw [hfm] at hprq
        have hprq2 : s.next_prime =
            if np0.evt < idle.evt then some np0 else some idle := hprq
        have hnp0mem : np0 ∈ idle :: q := by
          have hm2 := firstMin_mem hfm
          rcases List.mem_append.1 hm2 with hma | hmb
          · refine List.mem_cons_of_mem _ ?_
            rw [ht]; exact List.mem_append_left _ hma
          · refine List.mem_cons_of_mem _ ?_
            rw [ht]
            exact List.mem_append_right _ (List.mem_cons_of_mem _ hmb)
        by_cases hc : np0.evt < idle.evt
        · rw [if_pos hc] at hprq2
          obtain ⟨i, hi⟩ := firstMin_isFirstMinAt hfm
          exact ⟨np0, hprq2, i, herase ▸ hi⟩
        · rw [if_neg hc] at hprq2
          have hnp0idle : np0 = idle := by
            rcases List.mem_cons.1 hnp0mem with he | hm3
            · exact he
            · rcases hcls np0 hm3 with hlt2 | he2
              · exfalso
                rw [hIdle] at hc
                exact hc (by omega)
              · exact he2
          obtain ⟨i, hi⟩ := firstMin_isFirstMinAt hfm
          refine ⟨idle, hprq2, i, ?_⟩
          rw [← hnp0idle]
          exact herase ▸ hi
  · obtain ⟨hin, _, hall⟩ := foldl_min_avt q u32Max
    constructor
    · rcases hin with he | hm
      · have h1 : s.min_avt = u32Max := by rw [hmin, he]
        have h2 : s.min_avt ≤ idle.avt := by rw [hmin]; exact hall idle hmem
        have h3 : idle.avt = u32Max := le_antisymm (havt idle hmem) (h1 ▸ h2)
        rw [h1, ← h3]
        exact List.mem_map_of_mem _ hmem
      · rw [hmin]; exact hm
    · intro x hx
      rw [hmin]; exact hall x hx

/-- Concrete queue entry for the scan witness. -/
def scanA : Dom := { d0 with domid := 8, evt := 3, avt := 7 }

/-- Concrete queue entry for the scan witness. -/
def scanB : Dom := { d0 with domid := 9, evt := 5, avt := 9 }

set_option maxRecDepth 4000 in
/-- Witness for `scan_returns_min_two` on the concrete queue
`[scanA, scanB, idleDom]`. -/
theorem scan_returns_min_two_witness :
    (idleDom.evt = u32Max ∧ idleDom ∈ [scanA, scanB, idleDom] ∧
      (∀ x ∈ [scanA, scanB, idleDom], x.evt < u32Max ∨ x = idleDom) ∧
      (∀ x ∈ [scanA, scanB, idleDom], x.avt ≤ u32Max) ∧
      2 ≤ ([scanA, scanB, idleDom] : List Dom).length) ∧
    ((∃ j, IsFirstMinAt [scanA, scanB, idleDom] j
          (scanQueue idleDom [scanA, scanB, idleDom]).next ∧
        ∃ np, (scanQueue idleDom [scanA, scanB, idleDom]).next_prime = some np ∧
          ∃ i, IsFirstMinAt ([scanA, scanB, idleDom].eraseIdx j) i np) ∧
      (scanQueue idleDom [scanA, scanB, idleDom]).min_avt ∈
        [scanA, scanB, idleDom].map Dom.avt ∧
      ∀ x ∈ [scanA, scanB, idleDom],
        (scanQueue idleDom [scanA, scanB, idleDom]).min_avt ≤ x.avt) :=
  ⟨⟨by decide, by decide, by decide, by decide, by decide⟩,
    scan_returns_min_two idleDom [scanA, scanB, idleDom] (by decide) (by decide)
      (by decide) (by decide) (by decide)⟩

theorem rebase_dom_is_idle (dmx : Dom) :
    is_idle_task (rebase_dom dmx) = is_idle_task dmx := by
  unfold is_idle_task rebase_dom
  rfl

theorem rebase_dom_mcu (dmx : Dom) :
    (rebase_dom dmx).mcu_advance = dmx.mcu_advance := by
  unfold rebase_dom
  rfl

/-- Truncation to `s32` is the identity on small nonnegative values. -/
theorem s32wrap_small (i : Int) (h0 : 0 ≤ i) (h1 : i < 2147483648) :
    s32wrap i = i := by
  unfold s32wrap
  have hcast : ((u32Mod : Nat) : Int) = 4294967296 := by norm_num [u32Mod]
  rw [hcast]
  omega

/-- The common rebase of both `evt` fields does not change the `u32`
difference used by the slice computation. -/
theorem slice_two_tasks_rebase (a b mcu : Nat) (ctx : Int)
    (ha : a < u32Mod) (hb : b < u32Mod) :
    slice_two_tasks ((a + u32Mod - 0xe0000000) % u32Mod)
      ((b + u32Mod - 0xe0000000) % u32Mod) mcu ctx =
    slice_two_tasks a b mcu ctx := by
  unfold slice_two_tasks
  have hdiff : ((b + u32Mod - 0xe0000000) % u32Mod + u32Mod -
      (a + u32Mod - 0xe0000000) % u32Mod) % u32Mod = (b + u32Mod - a) % u32Mod := by
    unfold u32Mod at *
    omega
  rw [hdiff]

/-- Projection of the `bvt_do_schedule` result onto the granted slice: the
slice is computed from the scan results, rebased when the overflow guard
fires. -/
theorem bvt_do_schedule_time (cpu : Nat) (idle : Dom)
    (alldoms runqueue : List Dom) (svt : Nat) (prev : Dom) (now ctx : Int) :
    (bvt_do_schedule cpu idle alldoms runqueue svt prev now ctx).time =
      (if 0xf0000000 ≤ (if (scanQueue idle (foldPrev runqueue prev now).1).min_avt ≠ u32Max
            then (scanQueue idle (foldPrev runqueue prev now).1).min_avt else svt)
        then compute_slice
            (rebase_dom (scanQueue idle (foldPrev runqueue prev now).1).next)
            ((scanQueue idle (foldPrev runqueue prev now).1).next_prime.map rebase_dom)
            ctx
        else compute_slice (scanQueue idle (foldPrev runqueue prev now).1).next
            (scanQueue idle (foldPrev runqueue prev now).1).next_prime ctx) := by
  unfold bvt_do_schedule
  simp only []
  split_ifs <;> rfl

/-- C1 (confirmed): the slice granted by every reschedule decision follows
exactly three cases, stated over the scan results `next` and `next_prime`
of the folded run queue: `ctx_allow` when `next` is the idle domain;
`10 * ctx_allow` when the runner-up is absent or is the idle domain; and
`(next_prime.evt - next.evt) / next.mcu_advance + ctx_allow` otherwise
(the last under the `u32` bounds of the fields and absence of `s32`
overflow; the granted value is unaffected by a concurrent overflow rebase,
which shifts both `evt` fields equally). -/
theorem do_schedule_slice_three_cases (cpu : Nat) (idle : Dom)
    (alldoms runqueue : List Dom) (svt : Nat) (prev : Dom) (now ctx : Int)
    (hIdle : idle.evt = u32Max) (hc0 : 0 ≤ ctx) (hc1 : 10 * ctx < 2147483648) :
    (is_idle_task (scanQueue idle (foldPrev runqueue prev now).1).next = true →
      (bvt_do_schedule cpu idle alldoms runqueue svt prev now ctx).time = ctx) ∧
    (is_idle_task (scanQueue idle (foldPrev runqueue prev now).1).next = false →
      ((scanQueue idle (foldPrev runqueue prev now).1).next_prime = none ∨
        (∃ np, (scanQueue idle (foldPrev runqueue prev now).1).next_prime = some np ∧
          is_idle_task np = true)) →
      (bvt_do_schedule cpu idle alldoms runqueue svt prev now ctx).time = 10 * ctx) ∧
    (∀ np, (scanQueue idle (foldPrev runqueue prev now).1).next_prime = some np →
      is_idle_task (scanQueue idle (foldPrev runqueue prev now).1).next = false →
      is_idle_task np = false →
      (scanQueue idle (foldPrev runqueue prev now).1).next.evt < u32Mod →
      np.evt < u32Mod →
      (np.evt - (scanQueue idle (foldPrev runqueue prev now).1).next.evt) /
          (scanQueue idle (foldPrev runqueue prev now).1).next.mcu_advance +
        ctx.toNat < 2147483648 →
      (bvt_do_schedule cpu idle alldoms runqueue svt prev now ctx).time =
        (((np.evt - (scanQueue idle (foldPrev runqueue prev now).1).next.evt) /
            (scanQueue idle (foldPrev runqueue prev now).1).next.mcu_advance : Nat) : Int)
          + ctx) := by
  obtain ⟨hne, hpevt, hle⟩ :=
    scanWf_queue idle (foldPrev runqueue prev now).1 hIdle
  rw [bvt_do_schedule_time cpu idle alldoms runqueue svt prev now ctx]
  have hsw : s32wrap (10 * ctx) = 10 * ctx := s32wrap_small _ (by omega) hc1
  by_cases hreb : 0xf0000000 ≤
      (if (scanQueue idle (foldPrev runqueue prev now).1).min_avt ≠ u32Max
        then (scanQueue idle (foldPrev runqueue prev now).1).min_avt else svt)
  · rw [if_pos hreb]
    refine ⟨?_, ?_, ?_⟩
    · intro h
      unfold compute_slice
      rw [if_pos (by rw [rebase_dom_is_idle]; exact h)]
    · intro h1 h2
      unfold compute_slice
      rw [if_neg (by rw [rebase_dom_is_idle, h1]; simp)]
      rcases h2 with h2 | ⟨np, hnp, hnpidle⟩
      · rw [h2]
        exact hsw
      · rw [hnp]
        show (if is_idle_task (rebase_dom np) = true then s32wrap (10 * ctx)
          else slice_two_tasks _ _ _ ctx) = 10 * ctx
        rw [rebase_dom_is_idle, if_pos hnpidle]
        exact hsw
    · intro np hnp h1 h2 hb1 hb2 hov
      unfold compute_slice
      rw [if_neg (by rw [rebase_dom_is_idle, h1]; simp), hnp]
      show (if is_idle_task (rebase_dom np) = true then s32wrap (10 * ctx)
        else slice_two_tasks (rebase_dom (scanQueue idle (foldPrev runqueue prev now).1).next).evt
          (rebase_dom np).evt
          (rebase_dom (scanQueue idle (foldPrev runqueue prev now).1).next).mcu_advance ctx)
        = _
      rw [rebase_dom_is_idle, if_neg (by rw [h2]; simp), rebase_dom_mcu]
      show slice_two_tasks
          (((scanQueue idle (foldPrev runqueue prev now).1).next.evt + u32Mod - 0xe0000000) % u32Mod)
          ((np.evt + u32Mod - 0xe0000000) % u32Mod)
          (scanQueue idle (foldPrev runqueue prev now).1).next.mcu_advance ctx = _
      rw [slice_two_tasks_rebase _ _ _ _ hb1 hb2]
      have hord : (scanQueue idle (foldPrev runqueue prev now).1).next.evt ≤ np.evt := by
        rw [← hne, ← hpevt np hnp]
        exact hle
      exact slice_two_tasks_eval _ _ _ _ hord hb2 hc0 hov
  · rw [if_neg hreb]
    refine ⟨?_, ?_, ?_⟩
    · intro h
      unfold compute_slice
      rw [if_pos h]
    · intro h1 h2
      unfold compute_slice
      rw [if_neg (by rw [h1]; simp)]
      rcases h2 with h2 | ⟨np, hnp, hnpidle⟩
      · rw [h2]
        exact hsw
      · rw [hnp]
        show (if is_idle_task np = true then s32wrap (10 * ctx)
          else slice_two_tasks _ _ _ ctx) = 10 * ctx
        rw [if_pos hnpidle]
        exact hsw
    · intro np hnp h1 h2 hb1 hb2 hov
      unfold compute_slice
      rw [if_neg (by rw [h1]; simp), hnp]
      show (if is_idle_task np = true then s32wrap (10 * ctx)
        else slice_two_tasks (scanQueue idle (foldPrev runqueue prev now).1).next.evt
          np.evt (scanQueue idle (foldPrev runqueue prev now).1).next.mcu_advance ctx) = _
      rw [if_neg (by rw [h2]; simp)]
      have hord : (scanQueue idle (foldPrev runqueue prev now).1).next.evt ≤ np.evt := by
        rw [← hne, ← hpevt np hnp]
        exact hle
      exact slice_two_tasks_eval _ _ _ _ hord hb2 hc0 hov

set_option maxRecDepth 4000 in
/-- Witness for `do_schedule_slice_three_cases` on a concrete reschedule
with two runnable domains plus the idle sentinel. -/
theorem do_schedule_slice_three_cases_witness :
    (idleDom.evt = u32Max ∧ (0 : Int) ≤ 5000000 ∧
      10 * (5000000 : Int) < 2147483648) ∧
    ((is_idle_task (scanQueue idleDom
          (foldPrev [scanA, scanB, idleDom] idleDom 0).1).next = true →
        (bvt_do_schedule 0 idleDom [scanA, scanB, idleDom] [scanA, scanB, idleDom]
            0 idleDom 0 5000000).time = 5000000) ∧
      (is_idle_task (scanQueue idleDom
          (foldPrev [scanA, scanB, idleDom] idleDom 0).1).next = false →
        ((scanQueue idleDom
            (foldPrev [scanA, scanB, idleDom] idleDom 0).1).next_prime = none ∨
          (∃ np, (scanQueue idleDom
              (foldPrev [scanA, scanB, idleDom] idleDom 0).1).next_prime = some np ∧
            is_idle_task np = true)) →
        (bvt_do_schedule 0 idleDom [scanA, scanB, idleDom] [scanA, scanB, idleDom]
            0 idleDom 0 5000000).time = 10 * 5000000) ∧
      (∀ np, (scanQueue idleDom
          (foldPrev [scanA, scanB, idleDom] idleDom 0).1).next_prime = some np →
        is_idle_task (scanQueue idleDom
          (foldPrev [scanA, scanB, idleDom] idleDom 0).1).next = false →
        is_idle_task np = false →
        (scanQueue idleDom
          (foldPrev [scanA, scanB, idleDom] idleDom 0).1).next.evt < u32Mod →
        np.evt < u32Mod →
        (np.evt - (scanQueue idleDom
            (foldPrev [scanA, scanB, idleDom] idleDom 0).1).next.evt) /
            (scanQueue idleDom
              (foldPrev [scanA, scanB, idleDom] idleDom 0).1).next.mcu_advance +
          (5000000 : Int).toNat < 2147483648 →
        (bvt_do_schedule 0 idleDom [scanA, scanB, idleDom] [scanA, scanB, idleDom]
            0 idleDom 0 5000000).time =
          (((np.evt - (scanQueue idleDom
              (foldPrev [scanA, scanB, idleDom] idleDom 0).1).next.evt) /
              (scanQueue idleDom
                (foldPrev [scanA, scanB, idleDom] idleDom 0).1).next.mcu_advance :
              Nat) : Int) + 5000000)) :=
  ⟨⟨by decide, by decide, by decide⟩,
    do_schedule_slice_three_cases 0 idleDom [scanA, scanB, idleDom]
      [scanA, scanB, idleDom] 0 idleDom 0 5000000 (by decide) (by decide)
      (by decide)⟩

end BVT
